import Mathlib

/-!
Shallow embedding of the `Toasa/regexp` sources (packages `token` and `nfa`)
and proofs of the specification claims about them.

Modelling conventions:
* Go runes are `Char`; Go strings are `List Char`.
* Go `*State` pointers are modelled by an arena: every state allocated by the
  generator gets the index of its slot in a global list of transition tables,
  and `State.ID` is exactly that index (the Go code assigns ids from the same
  monotone counter).  Mutating a state through a pointer becomes updating its
  slot in the arena, which is faithful because within one compilation every
  state has a unique id (proved below).
* A Go `map[rune][]*State` is an association list with unique keys.  Go does
  not specify an iteration order for maps, so every place where the source
  ranges over a map (only `DumpDOT`) takes an explicit enumeration oracle that
  may return the entries in any order (any permutation of the list).
* `os.Exit(1)` in `Tokenize` is modelled by returning `none`; `gen` returning
  a `nil` NFA pointer is modelled by `none`.
-/

namespace Regexp

/-! ### Package `token` -/

/-- Token kinds, mirroring `TokenType` and the `TK_*` constants. -/
inductive TokenType where
  | TK_SYMBOL
  | TK_UNION
  | TK_CONCAT
  | TK_STAR
  | TK_EOF
deriving DecidableEq, Repr

/-- Mirrors `type Token struct { Type TokenType; Value rune }` (the field
`Type` is renamed `ty` because `Type` is reserved in Lean). -/
structure Token where
  ty : TokenType
  value : Char
deriving DecidableEq, Repr

/-- Mirrors `newToken`. -/
def newToken (tt : TokenType) (value : Char) : Token :=
  { ty := tt, value := value }

/-- Mirrors `isChar`: ASCII letter test on the rune's code point. -/
def isChar (c : Char) : Bool :=
  ('a' ≤ c && c ≤ 'z') || ('A' ≤ c && c ≤ 'Z')

/-- Mirrors `lastTokenIsSymbol`. -/
def lastTokenIsSymbol (tokens : List Token) : Bool :=
  match tokens.getLast? with
  | none => false
  | some t => t.ty == TokenType.TK_SYMBOL

/-- The trailing token appended by `Tokenize`: `newToken(TK_EOF, '\000')`. -/
def eofToken : Token := newToken TokenType.TK_EOF (Char.ofNat 0)

/-- The loop body of `Tokenize`, with `tokens` the accumulator built so far.
`none` models `os.Exit(1)` on an unexpected input character. -/
def tokenizeLoop (tokens : List Token) : List Char → Option (List Token)
  | [] => some (tokens ++ [eofToken])
  | c :: rest =>
    if isChar c then
      let tokens :=
        if lastTokenIsSymbol tokens then tokens ++ [newToken TokenType.TK_CONCAT '・']
        else tokens
      tokenizeLoop (tokens ++ [newToken TokenType.TK_SYMBOL c]) rest
    else if c == '|' then tokenizeLoop (tokens ++ [newToken TokenType.TK_UNION c]) rest
    else if c == '*' then tokenizeLoop (tokens ++ [newToken TokenType.TK_STAR c]) rest
    else none

/-- Mirrors `Tokenize`. -/
def Tokenize (regexp : List Char) : Option (List Token) :=
  tokenizeLoop [] regexp

/-- A character the tokenizer accepts: the conditions of the three
non-fatal branches of the loop in `Tokenize`. -/
def validChar (c : Char) : Bool :=
  isChar c || c == '|' || c == '*'

/-! ### Package `nfa`: states and the arena

`Trans` is the content of one state's `Nexts` map as an association list; an
`Arena` holds the `Trans` of every allocated state, indexed by `State.ID`. -/

abbrev Trans := List (Char × List Nat)

abbrev Arena := List Trans

/-- Go map lookup `m[c]` (`ok` form): first matching key, if any. -/
def lookupTrans : Trans → Char → Option (List Nat)
  | [], _ => none
  | (k, ds) :: rest, c => if k == c then some ds else lookupTrans rest c

/-- The effect of `tmp := s.Nexts[c]; tmp = append(tmp, dst); s.Nexts[c] = tmp`
on one state's map: extend the list at key `c`, creating the key if absent. -/
def addEdge : Trans → Char → Nat → Trans
  | [], c, dst => [(c, [dst])]
  | (k, ds) :: rest, c, dst =>
    if k == c then (k, ds ++ [dst]) :: rest else (k, ds) :: addEdge rest c dst

/-- Apply `addEdge` to the state `src` inside the arena (pointer mutation). -/
def addTrans (a : Arena) (src : Nat) (c : Char) (dst : Nat) : Arena :=
  a.set src (addEdge (a.getD src []) c dst)

/-- Overwrite the whole entry of state `src` (Go `s.Nexts[c] = lst` on a fresh
state with an empty map, as in `genUnionNFA` and `genStarNFA`). -/
def setTrans (a : Arena) (src : Nat) (t : Trans) : Arena :=
  a.set src t

/-! ### Package `nfa`: simulation -/

/-- Mirrors `removeDuplicate`; `seen` plays the role of `dup_map`.  States are
identified with their ids, which is what the Go code compares. -/
def removeDupAux (seen : List Nat) : List Nat → List Nat
  | [] => []
  | s :: rest =>
    if s ∈ seen then removeDupAux seen rest
    else s :: removeDupAux (s :: seen) rest

/-- Mirrors `removeDuplicate`: keep the first occurrence of each id. -/
def removeDuplicate (states : List Nat) : List Nat :=
  removeDupAux [] states

/-- The `state.Nexts['ε']` lookup of `adaptEpsilonTransition`: the direct
epsilon successors recorded for state `s`, `[]` when the key is absent. -/
def epsNexts (a : Arena) (s : Nat) : List Nat :=
  match lookupTrans (a.getD s []) 'ε' with
  | some ds => ds
  | none => []

/-- The accumulation loop of `adaptEpsilonTransition`: for each state, its
epsilon successors followed by the state itself. -/
def epsStep (a : Arena) : List Nat → List Nat
  | [] => []
  | s :: rest => (epsNexts a s ++ [s]) ++ epsStep a rest

/-- Mirrors `adaptEpsilonTransition`: one epsilon step folded into the set,
then deduplication by id. -/
def adaptEpsilonTransition (a : Arena) (states : List Nat) : List Nat :=
  removeDuplicate (epsStep a states)

/-- Mirrors `contain`: membership by id. -/
def contain (state : Nat) (states : List Nat) : Bool :=
  states.contains state

/-- Mirrors `NFA.isInAcceptState` for an accept-state list `accepts`. -/
def isInAcceptState (accepts states : List Nat) : Bool :=
  states.any (fun s => contain s accepts)

/-- Mirrors `type NFA struct`: the arena carries each state's `Nexts`, and
`states`, `start`, `accepts` hold ids (`States`, `StartState`,
`AcceptStates`).  The generator's final `StateCount` is `arena.length`. -/
structure NFA where
  arena : Arena
  states : List Nat
  start : Nat
  accepts : List Nat
deriving DecidableEq, Repr

/-- The body of the per-character loop of `Accept`: adapt the epsilon
transition, move on `c`, deduplicate, adapt again. -/
def stepChar (a : Arena) (cur : List Nat) (c : Char) : List Nat :=
  let cur := adaptEpsilonTransition a cur
  let nextStates := cur.foldl
    (fun acc s =>
      match lookupTrans (a.getD s []) c with
      | some next => acc ++ next
      | none => acc) []
  adaptEpsilonTransition a (removeDuplicate nextStates)

/-- Mirrors `NFA.Accept`. -/
def Accept (nfa : NFA) (str : List Char) : Bool :=
  let curStates := adaptEpsilonTransition nfa.arena [nfa.start]
  match str with
  | [] => isInAcceptState nfa.accepts curStates
  | _ => isInAcceptState nfa.accepts (str.foldl (stepChar nfa.arena) curStates)

/-! ### Package `nfa`: the generator

A `Frag` is the `*NFA` value the generator passes around during construction
(its `States`, `StartState` and `AcceptStates` as ids); the arena is threaded
separately because Go mutates states through shared pointers. -/

structure Frag where
  states : List Nat
  start : Nat
  accepts : List Nat
deriving DecidableEq, Repr

/-- Mirrors `Generator.newState`: the fresh state's id is the current
`StateCount` (the arena length) and its `Nexts` map is empty. -/
def newState (a : Arena) : Nat × Arena :=
  (a.length, a ++ [[]])

/-- Mirrors `genSymbolNFA`. -/
def genSymbolNFA (symbol : Char) (a : Arena) : Frag × Arena :=
  let (src, a) := newState a
  let (dst, a) := newState a
  let a := addTrans a src symbol dst
  (⟨[src, dst], src, [dst]⟩, a)

/-- Mirrors `genUnionNFA`: a fresh start state with epsilon transitions to
both old start states. -/
def genUnionNFA (lhs rhs : Frag) (a : Arena) : Frag × Arena :=
  let (start, a) := newState a
  let a := setTrans a start [('ε', [lhs.start, rhs.start])]
  (⟨start :: (lhs.states ++ rhs.states), start, lhs.accepts ++ rhs.accepts⟩, a)

/-- The loop of `genConcateNFA` and `genStarNFA`: give every state in
`accepts` an extra epsilon transition to `dst`. -/
def addEpsList (a : Arena) (accepts : List Nat) (dst : Nat) : Arena :=
  accepts.foldl (fun a s => addTrans a s 'ε' dst) a

/-- Mirrors `genConcateNFA`: epsilon transitions from the left fragment's
accept states to the right fragment's start state; no new state. -/
def genConcateNFA (lhs rhs : Frag) (a : Arena) : Frag × Arena :=
  let a := addEpsList a lhs.accepts rhs.start
  (⟨lhs.states ++ rhs.states, lhs.start, rhs.accepts⟩, a)

/-- Mirrors `genStarNFA`: a fresh start state (also accepting) with an epsilon
transition to the old start, and loop-back epsilon transitions from the old
accept states to the old start. -/
def genStarNFA (old : Frag) (a : Arena) : Frag × Arena :=
  let (start, a) := newState a
  let a := setTrans a start [('ε', [old.start])]
  let a := addEpsList a old.accepts old.start
  (⟨old.states ++ [start], start, old.accepts ++ [start]⟩, a)

/-- Modelled from the spec: the `parser` package is not among the sources, so
the AST type `parser.Node` is taken from the spec's data model — a tagged
variant over Symbol / Union / Concat / Star where a Symbol holds one character
and no children, Union and Concat hold two children and Star holds one.  The
Go tag `NodeType` is an integer, so tags outside the four named constants are
representable; the constructor `other` stands for any such unrecognized tag
(its children are irrelevant because `gen` never inspects them). -/
inductive Node where
  | symbol (value : Char)
  | union (lhs rhs : Node)
  | concat (lhs rhs : Node)
  | star (lhs : Node)
  | other (ty : Nat)
deriving DecidableEq, Repr

/-- Mirrors `Generator.gen`: the switch over `node.Type`.  The fall-through
`return nil` for an unrecognized tag is `none`.  (If a recursive call came
back `nil`, the Go code would dereference the nil pointer; that branch is
unreachable for ASTs built from the four recognized kinds, which are the only
ones the claims and the parser produce.) -/
def gen : Node → Arena → Option Frag × Arena
  | .symbol c, a =>
    let (f, a) := genSymbolNFA c a
    (some f, a)
  | .union l r, a =>
    match gen l a with
    | (some lf, a) =>
      match gen r a with
      | (some rf, a) =>
        let (f, a) := genUnionNFA lf rf a
        (some f, a)
      | (none, a) => (none, a)
    | (none, a) => (none, a)
  | .concat l r, a =>
    match gen l a with
    | (some lf, a) =>
      match gen r a with
      | (some rf, a) =>
        let (f, a) := genConcateNFA lf rf a
        (some f, a)
      | (none, a) => (none, a)
    | (none, a) => (none, a)
  | .star l, a =>
    match gen l a with
    | (some f, a) =>
      let (f, a) := genStarNFA f a
      (some f, a)
    | (none, a) => (none, a)
  | .other _, a => (none, a)

/-- Mirrors `CreateNFA`: run `gen` with a fresh generator (`StateCount = 0`,
so an empty arena) and package the resulting fragment. -/
def CreateNFA (node : Node) : Option NFA :=
  match gen node [] with
  | (some f, a) => some ⟨a, f.states, f.start, f.accepts⟩
  | (none, _) => none

/-- An AST whose tags are all among the four recognized node kinds — exactly
the ASTs the parser can produce. -/
def wfNode : Node → Bool
  | .symbol _ => true
  | .union l r => wfNode l && wfNode r
  | .concat l r => wfNode l && wfNode r
  | .star l => wfNode l
  | .other _ => false

/-- Number of Symbol leaves of an AST. -/
def countSymbol : Node → Nat
  | .symbol _ => 1
  | .union l r => countSymbol l + countSymbol r
  | .concat l r => countSymbol l + countSymbol r
  | .star l => countSymbol l
  | .other _ => 0

/-- Number of Union nodes of an AST. -/
def countUnion : Node → Nat
  | .symbol _ => 0
  | .union l r => countUnion l + countUnion r + 1
  | .concat l r => countUnion l + countUnion r
  | .star l => countUnion l
  | .other _ => 0

/-- Number of Concat nodes of an AST (they allocate no state). -/
def countConcat : Node → Nat
  | .symbol _ => 0
  | .union l r => countConcat l + countConcat r
  | .concat l r => countConcat l + countConcat r + 1
  | .star l => countConcat l
  | .other _ => 0

/-- Number of Star nodes of an AST. -/
def countStar : Node → Nat
  | .symbol _ => 0
  | .union l r => countStar l + countStar r
  | .concat l r => countStar l + countStar r
  | .star l => countStar l + 1
  | .other _ => 0

/-- The number of states Thompson's construction allocates for an AST:
two per Symbol leaf, one per Union node, one per Star node. -/
def nfaSize (n : Node) : Nat :=
  2 * countSymbol n + countUnion n + countStar n

/-! ### Package `nfa`: `DumpDOT`

The output is modelled as the emitted `String`.  Iteration over the slices
`AcceptStates`, `States` and each `[]*State` is in list order, as in Go; the
iteration over the map `src.Nexts` has no specified order in Go, so the model
takes an oracle `ord` that, given the state id and its `Trans`, yields the
entries in the order the runtime happens to produce (any permutation). -/

/-- One `q%d -> q%d [label=%c];` line. -/
def edgeLine (src : Nat) (symbol : Char) (dst : Nat) : String :=
  "    q" ++ Nat.repr src ++ " -> q" ++ Nat.repr dst ++
    " [label=" ++ String.singleton symbol ++ "];\n"

/-- The inner loop over the destination slice of one map entry. -/
def dstLines (src : Nat) (symbol : Char) : List Nat → String
  | [] => ""
  | d :: ds => edgeLine src symbol d ++ dstLines src symbol ds

/-- The loop over one state's map entries (already put in oracle order). -/
def symLines (src : Nat) : Trans → String
  | [] => ""
  | (symbol, ds) :: rest => dstLines src symbol ds ++ symLines src rest

/-- The outer loop over `nfa.States`. -/
def srcLines (ord : Nat → Trans → Trans) (a : Arena) : List Nat → String
  | [] => ""
  | s :: rest => symLines s (ord s (a.getD s [])) ++ srcLines ord a rest

/-- The loop over `nfa.AcceptStates`. -/
def acceptLines : List Nat → String
  | [] => ""
  | s :: rest => "    q" ++ Nat.repr s ++ " [shape = doublecircle];\n" ++ acceptLines rest

/-- Mirrors `NFA.DumpDOT`, parameterized by the map-iteration oracle `ord`. -/
def DumpDOT (nfa : NFA) (ord : Nat → Trans → Trans) : String :=
  "digraph G \x7b\n" ++
    ("    q" ++ Nat.repr nfa.start ++ " [shape = box];\n") ++
    acceptLines nfa.accepts ++
    srcLines ord nfa.arena nfa.states ++
    "\x7d\n"

/-! ### Tokenizer lemmas -/

/-- Running the tokenizer loop on a pattern of valid characters appends a
block of non-EOF tokens followed by exactly one EOF token. -/
theorem tokenizeLoop_valid (l : List Char) : ∀ acc : List Token,
    (∀ c ∈ l, validChar c = true) →
    ∃ mid, tokenizeLoop acc l = some (acc ++ (mid ++ [eofToken])) ∧
      ∀ t ∈ mid, t.ty ≠ TokenType.TK_EOF := by
  induction l with
  | nil =>
    intro acc _
    exact ⟨[], by simp [tokenizeLoop], by simp⟩
  | cons c rest ih =>
    intro acc hv
    have hvc : validChar c = true := hv c (List.mem_cons_self ..)
    have hvr : ∀ x ∈ rest, validChar x = true := fun x hx => hv x (List.mem_cons_of_mem _ hx)
    by_cases h1 : isChar c = true
    · by_cases h2 : lastTokenIsSymbol acc = true
      · obtain ⟨mid, hm, hne⟩ :=
          ih (acc ++ [newToken TokenType.TK_CONCAT '・'] ++ [newToken TokenType.TK_SYMBOL c]) hvr
        refine ⟨newToken TokenType.TK_CONCAT '・' :: newToken TokenType.TK_SYMBOL c :: mid, ?_, ?_⟩
        · have hstep : tokenizeLoop acc (c :: rest) =
              tokenizeLoop (acc ++ [newToken TokenType.TK_CONCAT '・'] ++
                [newToken TokenType.TK_SYMBOL c]) rest := by
            simp [tokenizeLoop, h1, h2]
          rw [hstep, hm]
          simp [List.append_assoc]
        · intro t ht
          rcases List.mem_cons.mp ht with rfl | ht
          · simp [newToken]
          rcases List.mem_cons.mp ht with rfl | ht
          · simp [newToken]
          exact hne t ht
      · have h2' : lastTokenIsSymbol acc = false := by simpa using h2
        obtain ⟨mid, hm, hne⟩ := ih (acc ++ [newToken TokenType.TK_SYMBOL c]) hvr
        refine ⟨newToken TokenType.TK_SYMBOL c :: mid, ?_, ?_⟩
        · have hstep : tokenizeLoop acc (c :: rest) =
              tokenizeLoop (acc ++ [newToken TokenType.TK_SYMBOL c]) rest := by
            simp [tokenizeLoop, h1, h2']
          rw [hstep, hm]
          simp [List.append_assoc]
        · intro t ht
          rcases List.mem_cons.mp ht with rfl | ht
          · simp [newToken]
          exact hne t ht
    · have h1' : isChar c = false := by simpa using h1
      have h2 : (c == '|') = true ∨ (c == '*') = true := by
        simp only [validChar, h1', Bool.false_or, Bool.or_eq_true] at hvc
        exact hvc
      rcases h2 with h2 | h2
      · obtain ⟨mid, hm, hne⟩ := ih (acc ++ [newToken TokenType.TK_UNION c]) hvr
        refine ⟨newToken TokenType.TK_UNION c :: mid, ?_, ?_⟩
        · have hstep : tokenizeLoop acc (c :: rest) =
              tokenizeLoop (acc ++ [newToken TokenType.TK_UNION c]) rest := by
            simp [tokenizeLoop, h1', h2]
          rw [hstep, hm]
          simp [List.append_assoc]
        · intro t ht
          rcases List.mem_cons.mp ht with rfl | ht
          · simp [newToken]
          exact hne t ht
      · have hc : c = '*' := by simpa using h2
        subst hc
        have h3 : (('*' : Char) == '|') = false := by decide
        obtain ⟨mid, hm, hne⟩ := ih (acc ++ [newToken TokenType.TK_STAR '*']) hvr
        refine ⟨newToken TokenType.TK_STAR '*' :: mid, ?_, ?_⟩
        · have hstep : tokenizeLoop acc ('*' :: rest) =
              tokenizeLoop (acc ++ [newToken TokenType.TK_STAR '*']) rest := by
            simp [tokenizeLoop, h1', h3]
          rw [hstep, hm]
          simp [List.append_assoc]
        · intro t ht
          rcases List.mem_cons.mp ht with rfl | ht
          · simp [newToken]
          exact hne t ht

/-- If the tokenizer loop returns a token list, every input character was
valid (otherwise the `os.Exit` branch would have been taken). -/
theorem tokenizeLoop_some_valid (l : List Char) : ∀ acc r,
    tokenizeLoop acc l = some r → ∀ c ∈ l, validChar c = true := by
  induction l with
  | nil => simp
  | cons c rest ih =>
    intro acc r h d hd
    by_cases h1 : isChar c = true
    · rcases List.mem_cons.mp hd with rfl | hd
      · simp [validChar, h1]
      · rw [tokenizeLoop, if_pos h1] at h
        exact ih _ _ h d hd
    · have h1' : isChar c = false := by simpa using h1
      by_cases h2 : (c == '|') = true
      · rcases List.mem_cons.mp hd with rfl | hd
        · simp [validChar, h2]
        · rw [tokenizeLoop, if_neg (by simp [h1']), if_pos h2] at h
          exact ih _ _ h d hd
      · have h2' : (c == '|') = false := by simpa using h2
        by_cases h3 : (c == '*') = true
        · rcases List.mem_cons.mp hd with rfl | hd
          · simp [validChar, h3]
          · rw [tokenizeLoop, if_neg (by simp [h1']), if_neg (by simp [h2']),
              if_pos h3] at h
            exact ih _ _ h d hd
        · have h3' : (c == '*') = false := by simpa using h3
          rw [tokenizeLoop, if_neg (by simp [h1']), if_neg (by simp [h2']),
            if_neg (by simp [h3'])] at h
          exact absurd h (by simp)

/-- C7: `Tokenize` returns a token sequence if and only if every character of
the pattern is a letter, `|` or `*`; on any other character it aborts (models
`os.Exit(1)`) and no incomplete token sequence is returned. -/
theorem Tokenize_isSome_iff_valid (l : List Char) :
    (Tokenize l).isSome = true ↔ ∀ c ∈ l, validChar c = true := by
  constructor
  · intro h
    obtain ⟨r, hr⟩ := Option.isSome_iff_exists.mp h
    exact tokenizeLoop_some_valid l [] r hr
  · intro h
    obtain ⟨mid, hm, _⟩ := tokenizeLoop_valid l [] h
    simp [Tokenize, hm]

/-- Witness for C7 at concrete inputs: `"a"` tokenizes, `"("` does not. -/
theorem Tokenize_isSome_iff_valid_witness :
    (Tokenize ['a']).isSome = true ∧ (Tokenize ['(']).isSome ≠ true :=
  ⟨(Tokenize_isSome_iff_valid ['a']).mpr (by decide),
   fun h => absurd ((Tokenize_isSome_iff_valid ['(']).mp h) (by decide)⟩

/-- C5: for patterns over the supported alphabet, the token sequence ends in
the unique EOF token; the empty pattern gives exactly `[EOF]`; and the two
concrete examples `"ab"` (with a synthesized Concat token between adjacent
symbols) and `"a|b"` come out as specified. -/
theorem Tokenize_eof_and_examples :
    (∀ l : List Char, (∀ c ∈ l, validChar c = true) →
      (Tokenize l).isSome = true ∧
      ((Tokenize l).getD []).getLast? = some eofToken ∧
      ((Tokenize l).getD []).countP (fun t => t.ty == TokenType.TK_EOF) = 1) ∧
    Tokenize [] = some [eofToken] ∧
    Tokenize "ab".toList = some [newToken TokenType.TK_SYMBOL 'a',
      newToken TokenType.TK_CONCAT '・', newToken TokenType.TK_SYMBOL 'b', eofToken] ∧
    Tokenize "a|b".toList = some [newToken TokenType.TK_SYMBOL 'a',
      newToken TokenType.TK_UNION '|', newToken TokenType.TK_SYMBOL 'b', eofToken] := by
  refine ⟨?_, by decide, by decide, by decide⟩
  intro l hv
  obtain ⟨mid, hm, hne⟩ := tokenizeLoop_valid l [] hv
  have hTok : Tokenize l = some (mid ++ [eofToken]) := by simpa [Tokenize] using hm
  refine ⟨by simp [hTok], ?_, ?_⟩
  · simp [hTok, List.getLast?_concat]
  · have hz : mid.countP (fun t => t.ty == TokenType.TK_EOF) = 0 := by
      rw [List.countP_eq_zero]
      intro t ht
      simpa using hne t ht
    simp [hTok, List.countP_append, hz, eofToken, newToken]

/-- Witness for C5: the universally quantified part applied to `"ab"`. -/
theorem Tokenize_eof_and_examples_witness :
    (Tokenize ['a', 'b']).isSome = true ∧
    ((Tokenize ['a', 'b']).getD []).getLast? = some eofToken ∧
    ((Tokenize ['a', 'b']).getD []).countP (fun t => t.ty == TokenType.TK_EOF) = 1 :=
  Tokenize_eof_and_examples.1 ['a', 'b'] (by decide)

/-! ### Deduplication and epsilon-step lemmas -/

theorem mem_removeDupAux (x : Nat) : ∀ (l seen : List Nat),
    x ∈ removeDupAux seen l ↔ x ∈ l ∧ x ∉ seen := by
  intro l
  induction l with
  | nil => intro seen; simp [removeDupAux]
  | cons s rest ih =>
    intro seen
    by_cases h : s ∈ seen
    · rw [removeDupAux, if_pos h, ih]
      constructor
      · rintro ⟨hr, hs⟩
        exact ⟨List.mem_cons_of_mem _ hr, hs⟩
      · rintro ⟨hr, hs⟩
        rcases List.mem_cons.mp hr with rfl | hr
        · exact absurd h hs
        · exact ⟨hr, hs⟩
    · rw [removeDupAux, if_neg h]
      constructor
      · intro hx
        rcases List.mem_cons.mp hx with rfl | hx
        · exact ⟨List.mem_cons_self .., h⟩
        · have := (ih (s :: seen)).mp hx
          exact ⟨List.mem_cons_of_mem _ this.1,
            fun hs => this.2 (List.mem_cons_of_mem _ hs)⟩
      · rintro ⟨hr, hs⟩
        rcases List.mem_cons.mp hr with rfl | hr
        · exact List.mem_cons_self ..
        · by_cases hxs : x = s
          · subst hxs; exact List.mem_cons_self ..
          · exact List.mem_cons_of_mem _ ((ih (s :: seen)).mpr
              ⟨hr, fun hm => (List.mem_cons.mp hm).elim hxs hs⟩)

theorem nodup_removeDupAux : ∀ (l seen : List Nat), (removeDupAux seen l).Nodup := by
  intro l
  induction l with
  | nil => intro seen; simp [removeDupAux]
  | cons s rest ih =>
    intro seen
    by_cases h : s ∈ seen
    · rw [removeDupAux, if_pos h]; exact ih seen
    · rw [removeDupAux, if_neg h]
      refine List.nodup_cons.mpr ⟨?_, ih (s :: seen)⟩
      intro hmem
      exact ((mem_removeDupAux s rest (s :: seen)).mp hmem).2 (List.mem_cons_self ..)

theorem mem_removeDuplicate {x : Nat} {l : List Nat} :
    x ∈ removeDuplicate l ↔ x ∈ l := by
  rw [removeDuplicate, mem_removeDupAux]
  simp

theorem nodup_removeDuplicate (l : List Nat) : (removeDuplicate l).Nodup :=
  nodup_removeDupAux l []

theorem mem_epsStep (a : Arena) (x : Nat) : ∀ states : List Nat,
    x ∈ epsStep a states ↔ ∃ s ∈ states, x ∈ epsNexts a s ∨ x = s := by
  intro states
  induction states with
  | nil => simp [epsStep]
  | cons s rest ih =>
    rw [epsStep]
    simp only [List.mem_append, List.mem_cons, List.not_mem_nil, or_false, ih]
    constructor
    · rintro ((h | rfl) | ⟨u, hu, h⟩)
      · exact ⟨s, Or.inl rfl, Or.inl h⟩
      · exact ⟨x, Or.inl rfl, Or.inr rfl⟩
      · exact ⟨u, Or.inr hu, h⟩
    · rintro ⟨u, (rfl | hu), h⟩
      · rcases h with h | rfl
        · exact Or.inl (Or.inl h)
        · exact Or.inl (Or.inr rfl)
      · exact Or.inr ⟨u, hu, h⟩

/-- C9: the result of `adaptEpsilonTransition` contains every input state,
contains otherwise only direct epsilon successors of input states, and has
pairwise-distinct ids. -/
theorem adaptEpsilonTransition_spec (a : Arena) (states : List Nat) (s t : Nat)
    (hs : s ∈ states) (ht : t ∈ adaptEpsilonTransition a states) :
    s ∈ adaptEpsilonTransition a states ∧
    (t ∈ states ∨ states.any (fun u => (epsNexts a u).contains t) = true) ∧
    (adaptEpsilonTransition a states).Nodup := by
  refine ⟨?_, ?_, nodup_removeDuplicate _⟩
  · rw [adaptEpsilonTransition, mem_removeDuplicate, mem_epsStep]
    exact ⟨s, hs, Or.inr rfl⟩
  · rw [adaptEpsilonTransition, mem_removeDuplicate, mem_epsStep] at ht
    obtain ⟨u, hu, h⟩ := ht
    rcases h with h | rfl
    · refine Or.inr ?_
      rw [List.any_eq_true]
      exact ⟨u, hu, by rw [List.contains_iff_exists_mem_beq]; exact ⟨t, h, by simp⟩⟩
    · exact Or.inl hu

/-- Witness for C9 on the arena with `0 --ε--> 1`: both conclusions at
concrete states. -/
theorem adaptEpsilonTransition_spec_witness :
    0 ∈ adaptEpsilonTransition [[('ε', [1])], []] [0] ∧
    (1 ∈ ([0] : List Nat) ∨
      ([0] : List Nat).any (fun u => (epsNexts [[('ε', [1])], []] u).contains 1) = true) ∧
    (adaptEpsilonTransition [[('ε', [1])], []] [0]).Nodup :=
  adaptEpsilonTransition_spec [[('ε', [1])], []] [0] 0 1 (by decide) (by decide)

/-! ### C1: the epsilon-step is not idempotent (code bug) -/

/-- The AST of pattern `a***`, whose NFA contains an epsilon chain of length
three (`start --ε--> s3 --ε--> s2 --ε--> s0`). -/
def astTripleStar : Node := .star (.star (.star (.symbol 'a')))

/-- The compiled NFA of `a***` (total via a default that is never used). -/
def tripleStarNFA : NFA := (CreateNFA astTripleStar).getD ⟨[], [], 0, []⟩

/-- C1 fails on the code: `adaptEpsilonTransition` folds in only states
reachable by a SINGLE epsilon transition, so on the NFA of `a***` applying it
twice to the start set strictly enlarges the set; as a consequence `Accept`
wrongly rejects `"a"`, which is in the language of `a***`.  The spec's demand
(a true epsilon closure, idempotent) is the intent; the code is a slip. -/
theorem adaptEpsilonTransition_not_idempotent :
    CreateNFA astTripleStar = some tripleStarNFA ∧
    adaptEpsilonTransition tripleStarNFA.arena
        (adaptEpsilonTransition tripleStarNFA.arena [tripleStarNFA.start]) ≠
      adaptEpsilonTransition tripleStarNFA.arena [tripleStarNFA.start] ∧
    Accept tripleStarNFA ['a'] = false :=
  ⟨rfl, by decide, by decide⟩

/-! ### Arena bookkeeping lemmas -/

theorem length_addTrans (a : Arena) (s : Nat) (c : Char) (d : Nat) :
    (addTrans a s c d).length = a.length := by
  simp [addTrans]

theorem length_setTrans (a : Arena) (s : Nat) (t : Trans) :
    (setTrans a s t).length = a.length := by
  simp [setTrans]

theorem getD_append_lt {α : Type} (x y : List α) (i : Nat) (d : α) (h : i < x.length) :
    (x ++ y).getD i d = x.getD i d := by
  simp [List.getD_eq_getElem?_getD, List.getElem?_append_left h]

theorem getD_addTrans_ne (a : Arena) {s i : Nat} (c : Char) (d : Nat) (h : s ≠ i) :
    (addTrans a s c d).getD i [] = a.getD i [] := by
  simp [addTrans, List.getD_eq_getElem?_getD, List.getElem?_set_ne h]

theorem getD_addTrans_self (a : Arena) {s : Nat} (c : Char) (d : Nat) (h : s < a.length) :
    (addTrans a s c d).getD s [] = addEdge (a.getD s []) c d := by
  simp [addTrans, List.getD_eq_getElem?_getD, List.getElem?_set_self h]

theorem getD_setTrans_ne (a : Arena) {s i : Nat} (t : Trans) (h : s ≠ i) :
    (setTrans a s t).getD i [] = a.getD i [] := by
  simp [setTrans, List.getD_eq_getElem?_getD, List.getElem?_set_ne h]

theorem getD_setTrans_self (a : Arena) {s : Nat} (t : Trans) (h : s < a.length) :
    (setTrans a s t).getD s [] = t := by
  simp [setTrans, List.getD_eq_getElem?_getD, List.getElem?_set_self h]

theorem mem_addTrans {e : Trans} {a : Arena} {s : Nat} {c : Char} {d : Nat}
    (h : e ∈ addTrans a s c d) : e ∈ a ∨ e = addEdge (a.getD s []) c d :=
  List.mem_or_eq_of_mem_set h

theorem mem_setTrans {e : Trans} {a : Arena} {s : Nat} {t : Trans}
    (h : e ∈ setTrans a s t) : e ∈ a ∨ e = t :=
  List.mem_or_eq_of_mem_set h

/-- An entry read out of an arena whose entries all have at most one key
itself has at most one key. -/
theorem getD_length_le_one {a : Arena} (h : ∀ e ∈ a, e.length ≤ 1) (s : Nat) :
    (a.getD s []).length ≤ 1 := by
  rcases he : a[s]? with _ | e
  · simp [List.getD_eq_getElem?_getD, he]
  · have hm : e ∈ a := List.getElem?_mem he
    simp only [List.getD_eq_getElem?_getD, he, Option.getD_some]
    exact h e hm

/-! ### Key-shape lemmas for `Nexts` maps -/

/-- A transition map that has at most one entry, and that entry (if any) is
keyed by the epsilon symbol.  Every state the generator ever designates as an
accept state keeps this shape, which is why `addEdge _ 'ε' _` never grows a
map beyond one key. -/
def epsOnly (t : Trans) : Prop := t.length ≤ 1 ∧ ∀ p ∈ t, p.1 = 'ε'

theorem epsOnly_nil : epsOnly [] := ⟨by simp, by simp⟩

theorem epsOnly_singleton (ds : List Nat) : epsOnly [('ε', ds)] :=
  ⟨by simp, by simp⟩

theorem epsOnly_addEdge {t : Trans} (h : epsOnly t) (d : Nat) :
    epsOnly (addEdge t 'ε' d) := by
  obtain ⟨hl, hk⟩ := h
  match t with
  | [] => exact ⟨by simp [addEdge], by simp [addEdge]⟩
  | (k, ds) :: rest =>
    have hrest : rest = [] := by
      cases rest with
      | nil => rfl
      | cons p ps => simp at hl
    subst hrest
    have hke : k = 'ε' := hk (k, ds) (List.mem_cons_self ..)
    subst hke
    rw [addEdge, if_pos (by simp)]
    exact ⟨by simp, by simp⟩

/-! ### `addEpsList` lemmas -/

theorem addEpsList_nil (a : Arena) (d : Nat) : addEpsList a [] d = a := rfl

theorem addEpsList_cons (a : Arena) (x : Nat) (xs : List Nat) (d : Nat) :
    addEpsList a (x :: xs) d = addEpsList (addTrans a x 'ε' d) xs d := rfl

theorem length_addEpsList (xs : List Nat) (d : Nat) : ∀ a : Arena,
    (addEpsList a xs d).length = a.length := by
  induction xs with
  | nil => intro a; rfl
  | cons x xs ih =>
    intro a
    rw [addEpsList_cons, ih, length_addTrans]

theorem getD_addEpsList_not_mem (xs : List Nat) (d : Nat) : ∀ (a : Arena) (i : Nat),
    i ∉ xs → (addEpsList a xs d).getD i [] = a.getD i [] := by
  induction xs with
  | nil => intro a i _; rfl
  | cons x xs ih =>
    intro a i hi
    rw [addEpsList_cons, ih _ _ (fun h => hi (List.mem_cons_of_mem _ h)),
      getD_addTrans_ne _ _ _ (fun h => hi (by rw [← h]; exact List.mem_cons_self ..))]

/-- Adding epsilon edges at states whose maps are `epsOnly` keeps every arena
entry at one key, and preserves `epsOnly` at every position. -/
theorem addEpsList_entries (d : Nat) : ∀ (xs : List Nat) (a : Arena),
    (∀ e ∈ a, e.length ≤ 1) → (∀ x ∈ xs, epsOnly (a.getD x [])) →
    (∀ e ∈ addEpsList a xs d, e.length ≤ 1) ∧
    (∀ i : Nat, epsOnly (a.getD i []) → epsOnly ((addEpsList a xs d).getD i [])) := by
  intro xs
  induction xs with
  | nil => intro a h1 _; exact ⟨h1, fun _ h => h⟩
  | cons x xs ih =>
    intro a h1 h2
    have hx : epsOnly (a.getD x []) := h2 x (List.mem_cons_self ..)
    have h1' : ∀ e ∈ addTrans a x 'ε' d, e.length ≤ 1 := by
      intro e he
      rcases mem_addTrans he with he | he
      · exact h1 e he
      · rw [he]
        exact (epsOnly_addEdge hx d).1
    have hpres : ∀ i : Nat, epsOnly (a.getD i []) →
        epsOnly ((addTrans a x 'ε' d).getD i []) := by
      intro i hi
      by_cases hix : x = i
      · subst hix
        by_cases hlt : x < a.length
        · rw [getD_addTrans_self _ _ _ hlt]
          exact epsOnly_addEdge hi d
        · rw [addTrans, List.set_eq_of_length_le (Nat.le_of_not_lt hlt)]
          exact hi
      · rw [getD_addTrans_ne _ _ _ hix]
        exact hi
    have h2' : ∀ y ∈ xs, epsOnly ((addTrans a x 'ε' d).getD y []) :=
      fun y hy => hpres y (h2 y (List.mem_cons_of_mem _ hy))
    obtain ⟨H1, H2⟩ := ih (addTrans a x 'ε' d) h1' h2'
    rw [addEpsList_cons]
    exact ⟨H1, fun i hi => H2 i (hpres i hi)⟩

/-! ### Unfolding equations for `gen` -/

theorem gen_symbol_eq (c : Char) (a : Arena) :
    gen (.symbol c) a =
      (some ⟨[a.length, a.length + 1], a.length, [a.length + 1]⟩,
        addTrans (a ++ [[], []]) a.length c (a.length + 1)) := by
  simp [gen, genSymbolNFA, newState]

theorem gen_union_eq (l r : Node) (a : Arena) {lf rf : Frag} {a1 a2 : Arena}
    (hl : gen l a = (some lf, a1)) (hr : gen r a1 = (some rf, a2)) :
    gen (.union l r) a =
      (some ⟨a2.length :: (lf.states ++ rf.states), a2.length, lf.accepts ++ rf.accepts⟩,
        setTrans (a2 ++ [[]]) a2.length [('ε', [lf.start, rf.start])]) := by
  simp [gen, hl, hr, genUnionNFA, newState]

theorem gen_concat_eq (l r : Node) (a : Arena) {lf rf : Frag} {a1 a2 : Arena}
    (hl : gen l a = (some lf, a1)) (hr : gen r a1 = (some rf, a2)) :
    gen (.concat l r) a =
      (some ⟨lf.states ++ rf.states, lf.start, rf.accepts⟩,
        addEpsList a2 lf.accepts rf.start) := by
  simp [gen, hl, hr, genConcateNFA]

theorem gen_star_eq (l : Node) (a : Arena) {f : Frag} {a1 : Arena}
    (hl : gen l a = (some f, a1)) :
    gen (.star l) a =
      (some ⟨f.states ++ [a1.length], a1.length, f.accepts ++ [a1.length]⟩,
        addEpsList (setTrans (a1 ++ [[]]) a1.length [('ε', [f.start])])
          f.accepts f.start) := by
  simp [gen, hl, genStarNFA, newState]

/-! ### The generator invariant -/

theorem mem_bounds_of_perm {xs : List Nat} {g m : Nat}
    (hp : xs.Perm (List.range' g m)) {x : Nat} (hx : x ∈ xs) : g ≤ x ∧ x < g + m :=
  List.mem_range'_1.mp (hp.mem_iff.mp hx)

/-- The combined invariant of one `gen` call on a well-formed AST, starting
from any arena: the call succeeds; it allocates exactly `nfaSize n` new
states; it never touches the slots of previously allocated states; the
fragment's state list is a permutation of the freshly allocated id range; the
fragment's start and accept states belong to its state list; and (when every
existing map has at most one key) every map still has at most one key
afterwards and every accept state's map is empty or pure-epsilon. -/
theorem gen_spec (n : Node) : wfNode n = true → ∀ a : Arena,
    ∃ f a2, gen n a = (some f, a2) ∧
      a2.length = a.length + nfaSize n ∧
      (∀ i, i < a.length → a2.getD i [] = a.getD i []) ∧
      f.states.Perm (List.range' a.length (nfaSize n)) ∧
      f.start ∈ f.states ∧
      f.accepts ⊆ f.states ∧
      ((∀ e ∈ a, e.length ≤ 1) →
        (∀ e ∈ a2, e.length ≤ 1) ∧ ∀ x ∈ f.accepts, epsOnly (a2.getD x [])) := by
  induction n with
  | symbol c =>
    intro _ a
    have hsz : nfaSize (Node.symbol c) = 2 := by
      simp [nfaSize, countSymbol, countUnion, countStar]
    refine ⟨_, _, gen_symbol_eq c a, ?_, ?_, ?_, ?_, ?_, ?_⟩
    · rw [length_addTrans, hsz]
      simp
    · intro i hi
      rw [getD_addTrans_ne _ _ _ (by omega), getD_append_lt _ _ _ _ hi]
    · have h2 : List.range' a.length (nfaSize (Node.symbol c)) = [a.length, a.length + 1] := by
        rw [hsz]
        rfl
      exact h2 ▸ List.Perm.refl _
    · simp
    · simp
    · intro H
      have hmid : ((a ++ ([[], []] : Arena)).getD a.length []) = [] := by
        simp [List.getD_eq_getElem?_getD, List.getElem?_append_right (Nat.le_refl a.length)]
      have htop : ((a ++ ([[], []] : Arena)).getD (a.length + 1) []) = [] := by
        simp [List.getD_eq_getElem?_getD,
          List.getElem?_append_right (Nat.le_succ a.length)]
      constructor
      · intro e he
        rcases mem_addTrans he with he | he
        · rcases List.mem_append.mp he with he | he
          · exact H e he
          · rcases List.mem_cons.mp he with rfl | he
            · simp
            · rcases List.mem_cons.mp he with rfl | he
              · simp
              · simp at he
        · rw [he, hmid]
          simp [addEdge]
      · intro x hx
        have hx' : x = a.length + 1 := by simpa using hx
        subst hx'
        rw [getD_addTrans_ne _ _ _ (by omega), htop]
        exact epsOnly_nil
  | union l r ihl ihr =>
    intro hwf a
    rw [wfNode, Bool.and_eq_true] at hwf
    obtain ⟨lf, a1, el, len1, pres1, perm1, start1, acc1, cond1⟩ := ihl hwf.1 a
    obtain ⟨rf, a2, er, len2, pres2, perm2, start2, acc2, cond2⟩ := ihr hwf.2 a1
    have hsz : nfaSize (Node.union l r) = (nfaSize r + nfaSize l) + 1 := by
      simp [nfaSize, countSymbol, countUnion, countStar]
      omega
    have hs2 : a2.length = a.length + (nfaSize r + nfaSize l) := by omega
    have hperm12 : (lf.states ++ rf.states).Perm
        (List.range' a.length (nfaSize r + nfaSize l)) := by
      have h2 := perm2
      rw [len1] at h2
      have h12 := perm1.append h2
      rwa [List.range'_append_1] at h12
    refine ⟨_, _, gen_union_eq l r a el er, ?_, ?_, ?_, ?_, ?_, ?_⟩
    · rw [length_setTrans]
      simp only [List.length_append, List.length_cons, List.length_nil]
      omega
    · intro i hi
      rw [getD_setTrans_ne _ _ (by omega), getD_append_lt _ _ _ _ (by omega),
        pres2 i (by omega), pres1 i hi]
    · show ([a2.length] ++ (lf.states ++ rf.states)).Perm _
      have htail : ((lf.states ++ rf.states) ++ [a2.length]).Perm
          (List.range' a.length (nfaSize (Node.union l r))) := by
        rw [hsz, List.range'_1_concat, hs2]
        exact hperm12.append (List.Perm.refl _)
      exact List.perm_append_comm.trans htail
    · exact List.mem_cons_self ..
    · intro x hx
      rcases List.mem_append.mp hx with hx | hx
      · exact List.mem_cons_of_mem _ (List.mem_append_left _ (acc1 hx))
      · exact List.mem_cons_of_mem _ (List.mem_append_right _ (acc2 hx))
    · intro H
      obtain ⟨H1, Hacc1⟩ := cond1 H
      obtain ⟨H2, Hacc2⟩ := cond2 H1
      constructor
      · intro e he
        rcases mem_setTrans he with he | he
        · rcases List.mem_append.mp he with he | he
          · exact H2 e he
          · rcases List.mem_cons.mp he with rfl | he
            · simp
            · simp at he
        · rw [he]
          simp
      · intro x hx
        rcases List.mem_append.mp hx with hx | hx
        · have hb := mem_bounds_of_perm perm1 (acc1 hx)
          rw [getD_setTrans_ne _ _ (by omega), getD_append_lt _ _ _ _ (by omega),
            pres2 x (by omega)]
          exact Hacc1 x hx
        · have hb := mem_bounds_of_perm perm2 (acc2 hx)
          rw [getD_setTrans_ne _ _ (by omega), getD_append_lt _ _ _ _ (by omega)]
          exact Hacc2 x hx
  | concat l r ihl ihr =>
    intro hwf a
    rw [wfNode, Bool.and_eq_true] at hwf
    obtain ⟨lf, a1, el, len1, pres1, perm1, start1, acc1, cond1⟩ := ihl hwf.1 a
    obtain ⟨rf, a2, er, len2, pres2, perm2, start2, acc2, cond2⟩ := ihr hwf.2 a1
    have hsz : nfaSize (Node.concat l r) = nfaSize r + nfaSize l := by
      simp [nfaSize, countSymbol, countUnion, countStar]
      omega
    refine ⟨_, _, gen_concat_eq l r a el er, ?_, ?_, ?_, ?_, ?_, ?_⟩
    · rw [length_addEpsList, hsz]
      omega
    · intro i hi
      have hnot : i ∉ lf.accepts := by
        intro hmem
        have hb := mem_bounds_of_perm perm1 (acc1 hmem)
        omega
      rw [getD_addEpsList_not_mem _ _ _ _ hnot, pres2 i (by omega), pres1 i hi]
    · have h2 := perm2
      rw [len1] at h2
      have h12 := perm1.append h2
      rw [List.range'_append_1] at h12
      rw [hsz]
      exact h12
    · exact List.mem_append_left _ start1
    · intro x hx
      exact List.mem_append_right _ (acc2 hx)
    · intro H
      obtain ⟨H1, Hacc1⟩ := cond1 H
      obtain ⟨H2, Hacc2⟩ := cond2 H1
      have htargets : ∀ x ∈ lf.accepts, epsOnly (a2.getD x []) := by
        intro x hx
        have hb := mem_bounds_of_perm perm1 (acc1 hx)
        rw [pres2 x (by omega)]
        exact Hacc1 x hx
      obtain ⟨H3, Hpres3⟩ := addEpsList_entries rf.start lf.accepts a2 H2 htargets
      exact ⟨H3, fun x hx => Hpres3 x (Hacc2 x hx)⟩
  | star l ihl =>
    intro hwf a
    rw [wfNode] at hwf
    obtain ⟨f, a1, el, len1, pres1, perm1, start1, acc1, cond1⟩ := ihl hwf a
    have hsz : nfaSize (Node.star l) = nfaSize l + 1 := by
      simp [nfaSize, countSymbol, countUnion, countStar]
      omega
    refine ⟨_, _, gen_star_eq l a el, ?_, ?_, ?_, ?_, ?_, ?_⟩
    · rw [length_addEpsList, length_setTrans]
      simp only [List.length_append, List.length_cons, List.length_nil]
      omega
    · intro i hi
      have hnot : i ∉ f.accepts := by
        intro hmem
        have hb := mem_bounds_of_perm perm1 (acc1 hmem)
        omega
      rw [getD_addEpsList_not_mem _ _ _ _ hnot, getD_setTrans_ne _ _ (by omega),
        getD_append_lt _ _ _ _ (by omega), pres1 i hi]
    · rw [hsz, List.range'_1_concat, ← len1]
      exact perm1.append (List.Perm.refl _)
    · exact List.mem_append_right _ (List.mem_cons_self ..)
    · intro x hx
      rcases List.mem_append.mp hx with hx | hx
      · exact List.mem_append_left _ (acc1 hx)
      · exact List.mem_append_right _ hx
    · intro H
      obtain ⟨H1, Hacc1⟩ := cond1 H
      have H3 : ∀ e ∈ setTrans (a1 ++ [[]]) a1.length [('ε', [f.start])], e.length ≤ 1 := by
        intro e he
        rcases mem_setTrans he with he | he
        · rcases List.mem_append.mp he with he | he
          · exact H1 e he
          · rcases List.mem_cons.mp he with rfl | he
            · simp
            · simp at he
        · rw [he]
          simp
      have htargets : ∀ x ∈ f.accepts,
          epsOnly ((setTrans (a1 ++ [[]]) a1.length [('ε', [f.start])]).getD x []) := by
        intro x hx
        have hb := mem_bounds_of_perm perm1 (acc1 hx)
        rw [getD_setTrans_ne _ _ (by omega), getD_append_lt _ _ _ _ (by omega)]
        exact Hacc1 x hx
      obtain ⟨H4, Hpres4⟩ := addEpsList_entries f.start f.accepts _ H3 htargets
      refine ⟨H4, ?_⟩
      intro x hx
      rcases List.mem_append.mp hx with hx | hx
      · exact Hpres4 x (htargets x hx)
      · have hx' : x = a1.length := by simpa using hx
        subst hx'
        apply Hpres4
        rw [getD_setTrans_self _ _ (by simp)]
        exact epsOnly_singleton _
  | other t =>
    intro h
    simp [wfNode] at h

/-! ### Claim theorems about the generator -/

/-- The AST of pattern `a*|b`: `Union(Star(Symbol a), Symbol b)`. -/
def astUnionStarAB : Node := .union (.star (.symbol 'a')) (.symbol 'b')

/-- The AST of pattern `ab`: `Concat(Symbol a, Symbol b)`. -/
def astConcatAB : Node := .concat (.symbol 'a') (.symbol 'b')

/-- Fallback values used only to state closed corollaries (never reached). -/
def defaultNFA : NFA := ⟨[], [], 0, []⟩

def defaultFrag : Frag := ⟨[], 0, []⟩

/-- C2: concrete `Accept` runs on the NFAs compiled from the ASTs of `a*|b`
and `ab`. -/
theorem Accept_concrete_patterns :
    (CreateNFA astUnionStarAB).map (fun nfa => Accept nfa "".toList) = some true ∧
    (CreateNFA astUnionStarAB).map (fun nfa => Accept nfa "a".toList) = some true ∧
    (CreateNFA astUnionStarAB).map (fun nfa => Accept nfa "aaaa".toList) = some true ∧
    (CreateNFA astUnionStarAB).map (fun nfa => Accept nfa "b".toList) = some true ∧
    (CreateNFA astUnionStarAB).map (fun nfa => Accept nfa "ab".toList) = some false ∧
    (CreateNFA astUnionStarAB).map (fun nfa => Accept nfa "ba".toList) = some false ∧
    (CreateNFA astUnionStarAB).map (fun nfa => Accept nfa "bb".toList) = some false ∧
    (CreateNFA astUnionStarAB).map (fun nfa => Accept nfa "c".toList) = some false ∧
    (CreateNFA astConcatAB).map (fun nfa => Accept nfa "ab".toList) = some true ∧
    (CreateNFA astConcatAB).map (fun nfa => Accept nfa "".toList) = some false ∧
    (CreateNFA astConcatAB).map (fun nfa => Accept nfa "a".toList) = some false ∧
    (CreateNFA astConcatAB).map (fun nfa => Accept nfa "b".toList) = some false ∧
    (CreateNFA astConcatAB).map (fun nfa => Accept nfa "abc".toList) = some false := by
  decide

/-- C3: the NFA compiled from a well-formed AST with `k` Symbol leaves, `u`
Union nodes and `s` Star nodes has a `States` list of length exactly
`2k + u + s` (Concat nodes contribute nothing), equal to the generator's
final `StateCount` (the arena length in this model). -/
theorem CreateNFA_state_count (n : Node) (nfa : NFA) (hwf : wfNode n = true)
    (h : CreateNFA n = some nfa) :
    nfa.states.length = 2 * countSymbol n + countUnion n + countStar n ∧
    nfa.arena.length = 2 * countSymbol n + countUnion n + countStar n := by
  obtain ⟨f, a2, he, hlen, _, hperm, _, _, _⟩ := gen_spec n hwf []
  simp only [CreateNFA, he, Option.some.injEq] at h
  subst h
  constructor
  · have hl := hperm.length_eq
    rw [List.length_range'] at hl
    simpa [nfaSize] using hl
  · simpa [nfaSize] using hlen

/-- Witness for C3 on the AST of pattern `ab`. -/
theorem CreateNFA_state_count_witness :
    ((CreateNFA astConcatAB).getD defaultNFA).states.length =
      2 * countSymbol astConcatAB + countUnion astConcatAB + countStar astConcatAB ∧
    ((CreateNFA astConcatAB).getD defaultNFA).arena.length =
      2 * countSymbol astConcatAB + countUnion astConcatAB + countStar astConcatAB :=
  CreateNFA_state_count astConcatAB _ rfl rfl

/-- C4: every fragment the generator returns (on any well-formed AST and from
any starting arena, hence every value produced by `genSymbolNFA`,
`genUnionNFA`, `genConcateNFA`, `genStarNFA` during a compilation, and the
final result of `CreateNFA`) has its start state and all its accept states in
its `States` list. -/
theorem gen_start_accept_mem (n : Node) (a : Arena) (f : Frag) (a2 : Arena)
    (hwf : wfNode n = true) (h : gen n a = (some f, a2)) :
    f.start ∈ f.states ∧ f.accepts ⊆ f.states := by
  obtain ⟨f', a2', he, _, _, _, hstart, hacc, _⟩ := gen_spec n hwf a
  have hcomb := h.symm.trans he
  simp only [Prod.mk.injEq, Option.some.injEq] at hcomb
  obtain ⟨rfl, rfl⟩ := hcomb
  exact ⟨hstart, hacc⟩

/-- Witness for C4 on the AST of pattern `ab`. -/
theorem gen_start_accept_mem_witness :
    ((gen astConcatAB []).1.getD defaultFrag).start ∈
      ((gen astConcatAB []).1.getD defaultFrag).states ∧
    ((gen astConcatAB []).1.getD defaultFrag).accepts ⊆
      ((gen astConcatAB []).1.getD defaultFrag).states :=
  gen_start_accept_mem astConcatAB [] _ (gen astConcatAB []).2 rfl rfl

/-- C6: `newState` always hands out the current counter value as the fresh
id, and the states of an NFA compiled by `CreateNFA` carry pairwise-distinct
ids that are exactly `0 … n-1` for `n` the final `StateCount` (the arena
length): the state list is a permutation of `range n`. -/
theorem CreateNFA_distinct_ids (n : Node) (nfa : NFA) (hwf : wfNode n = true)
    (h : CreateNFA n = some nfa) :
    (newState nfa.arena).1 = nfa.arena.length ∧
    nfa.states.Perm (List.range nfa.arena.length) ∧
    nfa.states.Nodup := by
  obtain ⟨f, a2, he, hlen, _, hperm, _, _, _⟩ := gen_spec n hwf []
  simp only [CreateNFA, he, Option.some.injEq] at h
  subst h
  refine ⟨rfl, ?_, ?_⟩
  · have hr : List.range a2.length = List.range' 0 (nfaSize n) := by
      rw [List.range_eq_range', hlen]
      simp
    show f.states.Perm (List.range a2.length)
    rw [hr]
    exact hperm
  · exact hperm.symm.nodup (List.nodup_range' _ _)

/-- Witness for C6 on the AST of pattern `ab`. -/
theorem CreateNFA_distinct_ids_witness :
    (newState ((CreateNFA astConcatAB).getD defaultNFA).arena).1 =
      ((CreateNFA astConcatAB).getD defaultNFA).arena.length ∧
    ((CreateNFA astConcatAB).getD defaultNFA).states.Perm
      (List.range ((CreateNFA astConcatAB).getD defaultNFA).arena.length) ∧
    ((CreateNFA astConcatAB).getD defaultNFA).states.Nodup :=
  CreateNFA_distinct_ids astConcatAB _ rfl rfl

/-- C10: `gen` returns `nil` (here `none`), with the arena untouched and no
error signalled, on any node whose tag is not one of the four recognized
kinds; and on ASTs built only from the four recognized kinds it always
returns an NFA. -/
theorem gen_unrecognized_nil :
    (∀ (t : Nat) (a : Arena), gen (Node.other t) a = (none, a)) ∧
    (∀ (n : Node) (a : Arena), wfNode n = true → ((gen n a).1).isSome = true) := by
  refine ⟨fun _ _ => rfl, fun n a hwf => ?_⟩
  obtain ⟨f, a2, he, _⟩ := gen_spec n hwf a
  rw [he]
  rfl

/-- Witness for C10: an unrecognized tag yields no NFA, the AST of `ab`
yields one. -/
theorem gen_unrecognized_nil_witness :
    gen (Node.other 7) [] = (none, []) ∧ ((gen astConcatAB []).1).isSome = true :=
  ⟨gen_unrecognized_nil.1 7 [], gen_unrecognized_nil.2 astConcatAB [] rfl⟩

/-! ### C8: `DumpDOT` and the map-iteration order -/

theorem perm_eq_of_length_le_one {α : Type} {t l : List α}
    (h : l.Perm t) (hlen : t.length ≤ 1) : l = t := by
  match t, hlen with
  | [], _ => exact h.eq_nil
  | [x], _ => exact List.perm_singleton.mp h

/-- When every transition map in the arena has at most one key, the edge
lines do not depend on the map-iteration oracle. -/
theorem srcLines_ord_invariant (a : Arena) (h : ∀ e ∈ a, e.length ≤ 1)
    (ord1 ord2 : Nat → Trans → Trans)
    (h1 : ∀ s t, (ord1 s t).Perm t) (h2 : ∀ s t, (ord2 s t).Perm t) :
    ∀ states : List Nat, srcLines ord1 a states = srcLines ord2 a states := by
  intro states
  induction states with
  | nil => rfl
  | cons s rest ih =>
    rw [srcLines, srcLines, ih]
    have hle := getD_length_le_one h s
    rw [perm_eq_of_length_le_one (h1 s _) hle, perm_eq_of_length_le_one (h2 s _) hle]

/-- C8 (amended): for every NFA compiled by `CreateNFA` — in which every
state has at most one key in its `Nexts` map — `DumpDOT` emits
character-for-character identical output on two invocations, whatever
iteration order Go's runtime picks for the maps each time. -/
theorem DumpDOT_deterministic (n : Node) (nfa : NFA) (ord1 ord2 : Nat → Trans → Trans)
    (hwf : wfNode n = true) (h : CreateNFA n = some nfa)
    (h1 : ∀ s t, (ord1 s t).Perm t) (h2 : ∀ s t, (ord2 s t).Perm t) :
    DumpDOT nfa ord1 = DumpDOT nfa ord2 := by
  obtain ⟨f, a2, he, _, _, _, _, _, cond⟩ := gen_spec n hwf []
  obtain ⟨hentries, _⟩ := cond (by simp)
  simp only [CreateNFA, he, Option.some.injEq] at h
  subst h
  rw [DumpDOT, DumpDOT, srcLines_ord_invariant _ hentries ord1 ord2 h1 h2]

/-- A hand-written NFA value whose state 0 has two keys in its map — a shape
`CreateNFA` never produces. -/
def twoKeyNFA : NFA := ⟨[[('a', [1]), ('b', [1])], []], [0, 1], 0, [1]⟩

/-- The identity map-iteration order. -/
def ordKeep : Nat → Trans → Trans := fun _ t => t

/-- A reversed map-iteration order (also a legal Go map iteration). -/
def ordFlip : Nat → Trans → Trans := fun _ t => t.reverse

/-- C8 as stated is false for arbitrary NFA values: on `twoKeyNFA` two legal
iteration orders of the two-key map of state 0 yield different output, so the
emitted text is not a function of the NFA value alone. -/
theorem DumpDOT_order_dependent :
    (ordFlip 0 (twoKeyNFA.arena.getD 0 [])).Perm (twoKeyNFA.arena.getD 0 []) ∧
    DumpDOT twoKeyNFA ordKeep ≠ DumpDOT twoKeyNFA ordFlip := by
  constructor
  · decide
  · decide

/-- Witness for the amended C8 on the AST of pattern `ab`, with the identity
and the reversed iteration orders. -/
theorem DumpDOT_deterministic_witness :
    DumpDOT ((CreateNFA astConcatAB).getD defaultNFA) ordKeep =
      DumpDOT ((CreateNFA astConcatAB).getD defaultNFA) ordFlip :=
  DumpDOT_deterministic astConcatAB _ ordKeep ordFlip rfl rfl
    (fun _ t => List.Perm.refl t) (fun _ t => List.reverse_perm t)

end Regexp
